import Mathlib

/-!
# Resilience primitives: circuit breaker and retry

A shallow embedding of `circuit_breaker/cb.go` and `retry/retry.go`.

Conventions of the embedding.

* Go's `int` and `time.Duration` are embedded as `Int` (durations in
  nanoseconds).  The product `delay * attempt` of the retry is reduced to the
  `int64` range with `wrapInt64`, as Go's multiplication does.  The counters of
  the breaker are incremented without wrap-around, which would need a counter
  of `2^63 - 1`.
* An `error` value and a `func()` value are opaque to the code under study:
  only `== nil` is ever asked of them.  They are embedded as labels
  (`GoError`, `GoFunc`) wrapped in `Option`, `none` being `nil`.
* Side effects (calling the action, calling the fallback, sending on the
  `transition` channel, starting a timer, logging) are recorded, in program
  order, in a list of events returned next to the new state.
* The mutex is held for the whole of `circuitBreaker.execute` and for the whole
  update of `stateTransition`, so each is embedded as one atomic step; the
  action is assumed to return and not to touch the breaker.
-/

/-- An `error` value that is not `nil`, identified by a label. -/
abbrev GoError := Nat

/-- A `func()` value that is not `nil`, identified by a label. -/
abbrev GoFunc := Nat

/-- The constant `time.Second`, in nanoseconds. -/
def second : Int := 1000000000

/-- Two's-complement reduction of an integer to the `int64` range
`[-2^63, 2^63)`: the value of a Go `int64` (here `time.Duration`) operation
whose mathematical result is `x`. -/
def wrapInt64 (x : Int) : Int :=
  (x + 9223372036854775808) % 18446744073709551616 - 9223372036854775808

namespace CircuitBreaker

/-- `closed = iota`. -/
def closed : Int := 0

/-- The constant `open` of the source (`open` is reserved in Lean). -/
def open_ : Int := 1

/-- The constant `halfopen`. -/
def halfopen : Int := 2

/-- `type settings struct`. -/
structure settings where
  maxCall : Int
  timeout : Int
  failures : Int
  fallback : Option GoFunc
deriving DecidableEq, Repr

/-- `type circuitBreaker struct`, without the logger, the mutex and the channel:
the channel is observed through `Event.send`. -/
structure circuitBreaker where
  state : Int
  callCount : Int
  errCount : Int
  settings : settings
deriving DecidableEq, Repr

/-- The diagnostic lines the breaker prints. -/
inductive Msg where
  | enteringHalfOpen
  | backToOpen
  | stateRestored
  | notAccepting
  | resortToFallback
deriving DecidableEq, Repr

/-- Observable effects of the breaker, in program order. -/
inductive Event where
  | action
  | fallback (f : GoFunc)
  | send (d : Int)
  | log (m : Msg)
deriving DecidableEq, Repr

/-- How many times the action was invoked in a trace. -/
def actionCalls : List Event → Nat
  | [] => 0
  | Event.action :: tr => actionCalls tr + 1
  | _ :: tr => actionCalls tr

/-- The fallbacks invoked in a trace, in order. -/
def fallbackCalls : List Event → List GoFunc
  | [] => []
  | Event.fallback f :: tr => f :: fallbackCalls tr
  | _ :: tr => fallbackCalls tr

/-- The durations sent on the `transition` channel in a trace, in order: the
recovery events scheduled. -/
def sends : List Event → List Int
  | [] => []
  | Event.send d :: tr => d :: sends tr
  | _ :: tr => sends tr

/-- The tail of the `halfopen` branch of `execute` (source lines 70-73): the
test `c.callCount == c.settings.maxCall`. -/
def restoreIfDone (c : circuitBreaker) (tr : List Event) : circuitBreaker × List Event :=
  if c.callCount = c.settings.maxCall then
    ({ c with state := closed }, tr ++ [Event.log Msg.stateRestored])
  else
    (c, tr)

/-- `func (c *circuitBreaker) execute(action func() (any, error))`.
The argument `action` gives the error returned by the action if it is invoked
(`none` for `nil`); the value it returns is discarded by the source. -/
def execute (c : circuitBreaker) (action : Unit → Option GoError) :
    circuitBreaker × List Event :=
  if c.state = closed then
    match action () with
    | some _ =>
      let c1 := { c with errCount := c.errCount + 1 }
      if c1.errCount = c1.settings.failures then
        ({ c1 with state := open_ }, [Event.action, Event.send c1.settings.timeout])
      else
        (c1, [Event.action])
    | none => ({ c with errCount := 0 }, [Event.action])
  else if c.state = halfopen then
    if c.callCount < c.settings.maxCall then
      let c1 := { c with callCount := c.callCount + 1 }
      match action () with
      | some _ =>
        ({ c1 with callCount := 0, state := open_ },
          [Event.action, Event.log Msg.backToOpen, Event.send c1.settings.timeout])
      | none => restoreIfDone c1 [Event.action]
    else
      restoreIfDone c []
  else
    (c, Event.log Msg.notAccepting ::
      (match c.settings.fallback with
       | some f => [Event.log Msg.resortToFallback, Event.fallback f]
       | none => []))

/-- One iteration of the loop of `stateTransition`, for a received duration
`d`: `time.NewTicker(d)` panics when `d` is not positive (`none`); otherwise
the tick arrives and the breaker is updated under the lock. -/
def stateTransition (c : circuitBreaker) (d : Int) : Option (circuitBreaker × List Event) :=
  if d ≤ 0 then none
  else some ({ c with errCount := 0, state := halfopen }, [Event.log Msg.enteringHalfOpen])

/-- `func newCircuitBreaker(settings settings) *circuitBreaker`. The worker
started by `go cb.stateTransition()` is not part of the value returned. -/
def newCircuitBreaker (s : settings) : circuitBreaker :=
  let s1 := if s.failures = 0 then { s with failures := 1 } else s
  let s2 := if s1.maxCall = 0 then { s1 with maxCall := 1 } else s1
  let s3 := if s2.timeout = 0 then { s2 with timeout := second * 4 } else s2
  { state := closed, callCount := 0, errCount := 0, settings := s3 }

/-- One operation on a breaker: a call of `execute` whose action returns
`result`, or the worker handling a scheduled duration `d`. -/
inductive Op where
  | exec (result : Option GoError)
  | recover (d : Int)
deriving DecidableEq, Repr

/-- Apply one operation. -/
def applyOp (c : circuitBreaker) : Op → Option (circuitBreaker × List Event)
  | Op.exec result => some (execute c (fun _ => result))
  | Op.recover d => stateTransition c d

/-- Apply a sequence of operations, left to right, collecting the trace;
`none` when the worker panics. -/
def runOps (c : circuitBreaker) : List Op → Option (circuitBreaker × List Event)
  | [] => some (c, [])
  | op :: ops =>
    match applyOp c op with
    | none => none
    | some (c1, tr1) =>
      match runOps c1 ops with
      | none => none
      | some (c2, tr2) => some (c2, tr1 ++ tr2)

/-- Execute a sequence of action outcomes on a breaker, with no recovery event
in between. -/
def runOutcomes (c : circuitBreaker) : List (Option GoError) → circuitBreaker
  | [] => c
  | result :: rest => runOutcomes (execute c (fun _ => result)).1 rest

/-- The length of the run of failures that ends a sequence of outcomes. -/
def trailingFailures (outs : List (Option GoError)) : Nat :=
  ((outs.map Option.isSome).reverse.takeWhile id).length

/-- For each `execute` call of a sequence of operations that moves the breaker
from `halfopen` to `closed`: the number of invocations of the action that
succeeded since the breaker last entered `halfopen`, that call included.
`since` is that number for the operations already applied. -/
def closingReports (c : circuitBreaker) (since : Nat) : List Op → List Nat
  | [] => []
  | Op.exec result :: ops =>
    let c1 := (execute c (fun _ => result)).1
    let invoked := actionCalls (execute c (fun _ => result)).2
    let since1 := if c.state = halfopen ∧ result = none then since + invoked else since
    if c.state = halfopen ∧ c1.state = closed then
      since1 :: closingReports c1 since1 ops
    else
      closingReports c1 since1 ops
  | Op.recover d :: ops =>
    match stateTransition c d with
    | none => []
    | some (c1, _) => closingReports c1 (if c.state = halfopen then since else 0) ops

/-- A breaker together with its recovery worker: `pending` holds the durations
sent on the `transition` channel whose update of the breaker (source lines
37-40) has not been applied yet, oldest first. -/
structure system where
  cb : circuitBreaker
  pending : List Int
deriving DecidableEq, Repr

/-- One step of a breaker and its worker: a call of `execute` whose action
returns `result`, or the worker applying the oldest pending duration. -/
inductive SysOp where
  | call (result : Option GoError)
  | deliver
deriving DecidableEq, Repr

/-- The breaker and worker right after `newCircuitBreaker`: nothing is pending. -/
def newSystem (s : settings) : system :=
  { cb := newCircuitBreaker s, pending := [] }

/-- Apply one step. A call appends what `execute` sends to the pending
durations. The worker step needs a pending duration and runs `stateTransition`
on it; `none` when there is nothing to apply or the worker panics. -/
def sysStep (s : system) : SysOp → Option system
  | SysOp.call result =>
    some { cb := (execute s.cb (fun _ => result)).1,
           pending := s.pending ++ sends (execute s.cb (fun _ => result)).2 }
  | SysOp.deliver =>
    match s.pending with
    | [] => none
    | d :: rest =>
      match stateTransition s.cb d with
      | none => none
      | some (c1, _) => some { cb := c1, pending := rest }

/-- Apply a sequence of steps, left to right. -/
def sysRun (s : system) : List SysOp → Option system
  | [] => some s
  | op :: ops =>
    match sysStep s op with
    | none => none
    | some s1 => sysRun s1 ops

end CircuitBreaker

namespace Retry

/-- `type exponentialRetry struct`. -/
structure exponentialRetry where
  numOfRetry : Int
  exponentialFactor : Int
  delay : Int
  fallback : Option GoFunc
deriving DecidableEq, Repr

/-- Observable effects of the retry, in program order. `logFail` and
`logSuccess` carry the 1-based attempt number `fixed` that is printed; `tick d`
is the call `time.Tick(d)` followed by the receive on its result. -/
inductive Event where
  | action
  | logFail (fixed : Int)
  | logSuccess (fixed : Int)
  | fallback (f : GoFunc)
  | tick (d : Int)
deriving DecidableEq, Repr

/-- How a call of `execute` ends: it returns an `error` (`none` for `nil`), or
it never returns because it receives from the `nil` channel that `time.Tick`
yields for a duration that is not positive. -/
inductive Outcome where
  | returned (err : Option GoError)
  | blocked
deriving DecidableEq, Repr

/-- How many times the action was invoked in a trace. -/
def actionCalls : List Event → Nat
  | [] => 0
  | Event.action :: tr => actionCalls tr + 1
  | _ :: tr => actionCalls tr

/-- The fallbacks invoked in a trace, in order. -/
def fallbackCalls : List Event → List GoFunc
  | [] => []
  | Event.fallback f :: tr => f :: fallbackCalls tr
  | _ :: tr => fallbackCalls tr

/-- The durations handed to `time.Tick` in a trace, in order. -/
def waits : List Event → List Int
  | [] => []
  | Event.tick d :: tr => d :: waits tr
  | _ :: tr => waits tr

/-- The waits of a trace that come right after the report of a failed attempt,
each paired with the attempt number reported. -/
def waitsAfterFail : List Event → List (Int × Int)
  | [] => []
  | Event.logFail fixed :: Event.tick d :: tr => (fixed, d) :: waitsAfterFail tr
  | _ :: tr => waitsAfterFail tr

/-- What the code does when the last attempt fails: `r.fallback()` if it is
not `nil`. -/
def fallbackEvents (r : exponentialRetry) : List Event :=
  match r.fallback with
  | some f => [Event.fallback f]
  | none => []

/-- The loop `for i := range r.numOfRetry` of `execute`, from index `i` with
`remaining` iterations to go. `action i` is the error returned by the
invocation of the action that follows `i` earlier ones: the loop invokes the
action exactly once per iteration. The wait is `r.delay * time.Duration(fixed)`,
an `int64` product. -/
def attempts (r : exponentialRetry) (action : Nat → Option GoError) :
    Nat → Nat → Outcome × List Event
  | 0, _ => (Outcome.returned none, [])
  | remaining + 1, i =>
    let fixed : Int := (i : Int) + 1
    match action i with
    | some err =>
      if fixed = r.numOfRetry then
        (Outcome.returned (some err),
          Event.action :: Event.logFail fixed :: fallbackEvents r)
      else
        let d := wrapInt64 (r.delay * fixed)
        if d ≤ 0 then
          (Outcome.blocked, [Event.action, Event.logFail fixed, Event.tick d])
        else
          let rest := attempts r action remaining (i + 1)
          (rest.1, Event.action :: Event.logFail fixed :: Event.tick d :: rest.2)
    | none => (Outcome.returned none, [Event.action, Event.logSuccess fixed])

/-- `func (r *exponentialRetry) execute(action func() (error)) error`. A range
over an `int` that is not positive runs no iteration. -/
def execute (r : exponentialRetry) (action : Nat → Option GoError) : Outcome × List Event :=
  attempts r action r.numOfRetry.toNat 0

/-- `func newExponentialRetry(...) *exponentialRetry`. -/
def newExponentialRetry (numOfRetry : Int) (exponentialFactor : Int) (delay : Int)
    (fallback : Option GoFunc) : exponentialRetry :=
  { numOfRetry := numOfRetry, exponentialFactor := exponentialFactor, delay := delay,
    fallback := fallback }

end Retry

namespace CircuitBreaker

/-- C1. In state `closed`, `execute` invokes the action exactly once and leaves
`callCount` alone. If the action succeeds, `errCount` becomes 0, the state
stays `closed` and nothing is sent. If it fails, `errCount` becomes
`errCount + 1`; when that value equals `settings.failures` the state becomes
`open` and exactly one duration, `settings.timeout`, is sent; otherwise the
state stays `closed` and nothing is sent. -/
theorem closed_call_contract (c : circuitBreaker) (action : Unit → Option GoError)
    (h : c.state = closed) :
    actionCalls (execute c action).2 = 1 ∧
    (execute c action).1.callCount = c.callCount ∧
    (execute c action).1.settings = c.settings ∧
    ((execute c action).1.errCount, (execute c action).1.state, sends (execute c action).2) =
      (match action () with
       | none => (0, closed, [])
       | some _ =>
         if c.errCount + 1 = c.settings.failures then
           (c.errCount + 1, open_, [c.settings.timeout])
         else
           (c.errCount + 1, closed, [])) := by
  unfold execute
  rw [if_pos h]
  cases hact : action () with
  | none => simp [actionCalls, sends, h]
  | some e =>
    by_cases hf : c.errCount + 1 = c.settings.failures
    · simp [hf, actionCalls, sends]
    · simp [hf, actionCalls, sends, h]

/-- Witness of C1: a breaker with threshold 3 and two recorded failures fails a
third time. -/
theorem closed_call_contract_witness :
    actionCalls (execute ⟨closed, 0, 2, ⟨2, second, 3, none⟩⟩ (fun _ => some 7)).2 = 1 ∧
    (execute ⟨closed, 0, 2, ⟨2, second, 3, none⟩⟩ (fun _ => some 7)).1.callCount = 0 ∧
    (execute ⟨closed, 0, 2, ⟨2, second, 3, none⟩⟩ (fun _ => some 7)).1.settings
      = ⟨2, second, 3, none⟩ ∧
    ((execute ⟨closed, 0, 2, ⟨2, second, 3, none⟩⟩ (fun _ => some 7)).1.errCount,
      (execute ⟨closed, 0, 2, ⟨2, second, 3, none⟩⟩ (fun _ => some 7)).1.state,
      sends (execute ⟨closed, 0, 2, ⟨2, second, 3, none⟩⟩ (fun _ => some 7)).2) =
      (3, open_, [second]) :=
  closed_call_contract ⟨closed, 0, 2, ⟨2, second, 3, none⟩⟩ (fun _ => some 7) rfl

/-- C2. In state `open`, `execute` does not invoke the action, invokes the
fallback exactly once when one is configured and nothing otherwise, sends
nothing on the channel and leaves the whole breaker (state, `errCount`,
`callCount`, settings) as it was. -/
theorem open_call_rejected (c : circuitBreaker) (action : Unit → Option GoError)
    (h : c.state = open_) :
    (execute c action).1 = c ∧
    actionCalls (execute c action).2 = 0 ∧
    fallbackCalls (execute c action).2 = c.settings.fallback.toList ∧
    sends (execute c action).2 = [] := by
  have h0 : ¬ c.state = closed := by rw [h]; decide
  have h2 : ¬ c.state = halfopen := by rw [h]; decide
  unfold execute
  rw [if_neg h0, if_neg h2]
  cases hfb : c.settings.fallback with
  | none => simp [actionCalls, fallbackCalls, sends]
  | some f => simp [actionCalls, fallbackCalls, sends]

/-- Witness of C2: an open breaker with fallback 5 and a failing action. -/
theorem open_call_rejected_witness :
    (execute ⟨open_, 0, 3, ⟨2, second, 3, some 5⟩⟩ (fun _ => some 7)).1
      = ⟨open_, 0, 3, ⟨2, second, 3, some 5⟩⟩ ∧
    actionCalls (execute ⟨open_, 0, 3, ⟨2, second, 3, some 5⟩⟩ (fun _ => some 7)).2 = 0 ∧
    fallbackCalls (execute ⟨open_, 0, 3, ⟨2, second, 3, some 5⟩⟩ (fun _ => some 7)).2 = [5] ∧
    sends (execute ⟨open_, 0, 3, ⟨2, second, 3, some 5⟩⟩ (fun _ => some 7)).2 = [] :=
  open_call_rejected ⟨open_, 0, 3, ⟨2, second, 3, some 5⟩⟩ (fun _ => some 7) rfl

/-- C4. In state `halfopen` with `callCount < settings.maxCall`, a failing
action is invoked exactly once, `callCount` becomes 0, the state becomes
`open`, exactly one duration, `settings.timeout`, is sent, and `errCount` and
the settings are unchanged. -/
theorem halfopen_failure_reopens (c : circuitBreaker) (action : Unit → Option GoError)
    (e : GoError) (h : c.state = halfopen) (hlt : c.callCount < c.settings.maxCall)
    (hfail : action () = some e) :
    actionCalls (execute c action).2 = 1 ∧
    (execute c action).1.callCount = 0 ∧
    (execute c action).1.state = open_ ∧
    sends (execute c action).2 = [c.settings.timeout] ∧
    (execute c action).1.errCount = c.errCount ∧
    (execute c action).1.settings = c.settings := by
  have h0 : ¬ c.state = closed := by rw [h]; decide
  unfold execute
  rw [if_neg h0, if_pos h, if_pos hlt]
  simp [hfail, actionCalls, sends]

/-- Witness of C4: a half-open breaker that admitted one call out of two. -/
theorem halfopen_failure_reopens_witness :
    actionCalls (execute ⟨halfopen, 1, 0, ⟨2, second, 3, none⟩⟩ (fun _ => some 7)).2 = 1 ∧
    (execute ⟨halfopen, 1, 0, ⟨2, second, 3, none⟩⟩ (fun _ => some 7)).1.callCount = 0 ∧
    (execute ⟨halfopen, 1, 0, ⟨2, second, 3, none⟩⟩ (fun _ => some 7)).1.state = open_ ∧
    sends (execute ⟨halfopen, 1, 0, ⟨2, second, 3, none⟩⟩ (fun _ => some 7)).2 = [second] ∧
    (execute ⟨halfopen, 1, 0, ⟨2, second, 3, none⟩⟩ (fun _ => some 7)).1.errCount = 0 ∧
    (execute ⟨halfopen, 1, 0, ⟨2, second, 3, none⟩⟩ (fun _ => some 7)).1.settings
      = ⟨2, second, 3, none⟩ :=
  halfopen_failure_reopens ⟨halfopen, 1, 0, ⟨2, second, 3, none⟩⟩ (fun _ => some 7) 7 rfl
    (by decide) rfl

/-- C5. In state `halfopen`, `execute` invokes the action exactly once when
`callCount < settings.maxCall` on entry and not at all otherwise. When the
invoked action succeeds, `callCount` becomes `callCount + 1`, the state becomes
`closed` when that new value equals `settings.maxCall` and stays `halfopen`
otherwise, and nothing is sent on the channel. -/
theorem halfopen_admission (c : circuitBreaker) (action : Unit → Option GoError)
    (h : c.state = halfopen) :
    actionCalls (execute c action).2 = (if c.callCount < c.settings.maxCall then 1 else 0) ∧
    (c.callCount < c.settings.maxCall → action () = none →
      (execute c action).1.callCount = c.callCount + 1 ∧
      (execute c action).1.state
        = (if c.callCount + 1 = c.settings.maxCall then closed else halfopen) ∧
      sends (execute c action).2 = []) := by
  have h0 : ¬ c.state = closed := by rw [h]; decide
  unfold execute
  rw [if_neg h0, if_pos h]
  by_cases hlt : c.callCount < c.settings.maxCall
  · rw [if_pos hlt, if_pos hlt]
    constructor
    · cases hact : action () with
      | none =>
        by_cases hd : c.callCount + 1 = c.settings.maxCall <;>
          simp [restoreIfDone, hd, actionCalls]
      | some e => simp [actionCalls]
    · intro _ hact
      by_cases hd : c.callCount + 1 = c.settings.maxCall <;>
        simp [hact, restoreIfDone, hd, sends, h]
  · rw [if_neg hlt, if_neg hlt]
    constructor
    · by_cases hd : c.callCount = c.settings.maxCall <;>
        simp [restoreIfDone, hd, actionCalls]
    · intro hc
      exact absurd hc hlt

/-- Witness of C5: the second of two admitted calls succeeds and closes the
breaker. -/
theorem halfopen_admission_witness :
    actionCalls (execute ⟨halfopen, 1, 0, ⟨2, second, 3, none⟩⟩ (fun _ => none)).2 = 1 ∧
    (execute ⟨halfopen, 1, 0, ⟨2, second, 3, none⟩⟩ (fun _ => none)).1.callCount = 2 ∧
    (execute ⟨halfopen, 1, 0, ⟨2, second, 3, none⟩⟩ (fun _ => none)).1.state = closed ∧
    sends (execute ⟨halfopen, 1, 0, ⟨2, second, 3, none⟩⟩ (fun _ => none)).2 = [] :=
  ⟨(halfopen_admission ⟨halfopen, 1, 0, ⟨2, second, 3, none⟩⟩ (fun _ => none) rfl).1,
   (halfopen_admission ⟨halfopen, 1, 0, ⟨2, second, 3, none⟩⟩ (fun _ => none) rfl).2
     (by decide) rfl⟩

/-- C10. The constructor returns a breaker in state `closed` with `errCount`
0 and `callCount` 0 whose settings are the argument with `failures` 0 replaced
by 1, `maxCall` 0 replaced by 1 and `timeout` 0 replaced by four seconds; every
other value, and the fallback, is stored as given. -/
theorem newCircuitBreaker_fields (s : settings) :
    (newCircuitBreaker s).state = closed ∧
    (newCircuitBreaker s).errCount = 0 ∧
    (newCircuitBreaker s).callCount = 0 ∧
    (newCircuitBreaker s).settings =
      { maxCall := if s.maxCall = 0 then 1 else s.maxCall,
        timeout := if s.timeout = 0 then 4 * second else s.timeout,
        failures := if s.failures = 0 then 1 else s.failures,
        fallback := s.fallback } := by
  refine ⟨rfl, rfl, rfl, ?_⟩
  unfold newCircuitBreaker
  by_cases hf : s.failures = 0 <;> by_cases hm : s.maxCall = 0 <;>
    by_cases ht : s.timeout = 0 <;> simp [hf, hm, ht, mul_comm]

end CircuitBreaker

namespace CircuitBreaker

/-- C3, evaluated on the code. A breaker built with the defaults (`failures`
1, `maxCall` 1) fails once, recovers, succeeds once, fails once and recovers
again: it is then `halfopen` with `callCount` still 1. The next `execute` call
closes it without invoking the action, whatever the action is. Of the two
moves from `halfopen` to `closed`, the first follows one successful invocation
and the second follows none. -/
theorem second_halfopen_closes_unprobed :
    (newCircuitBreaker ⟨0, 0, 0, none⟩).settings.failures = 1 ∧
    (newCircuitBreaker ⟨0, 0, 0, none⟩).settings.maxCall = 1 ∧
    Option.map Prod.fst (runOps (newCircuitBreaker ⟨0, 0, 0, none⟩)
        [Op.exec (some 1), Op.recover (second * 4), Op.exec none, Op.exec (some 1),
          Op.recover (second * 4)])
      = some ⟨halfopen, 1, 0, ⟨1, second * 4, 1, none⟩⟩ ∧
    (∀ action : Unit → Option GoError,
      (execute ⟨halfopen, 1, 0, ⟨1, second * 4, 1, none⟩⟩ action).1.state = closed ∧
      actionCalls (execute ⟨halfopen, 1, 0, ⟨1, second * 4, 1, none⟩⟩ action).2 = 0) ∧
    closingReports (newCircuitBreaker ⟨0, 0, 0, none⟩) 0
        [Op.exec (some 1), Op.recover (second * 4), Op.exec none, Op.exec (some 1),
          Op.recover (second * 4), Op.exec none]
      = [1, 0] := by
  refine ⟨by decide, by decide, by decide, ?_, by decide⟩
  intro action
  constructor <;> rfl

end CircuitBreaker

namespace CircuitBreaker

/-- A successful call in state `closed`. -/
theorem execute_closed_none (c : circuitBreaker) (h : c.state = closed) :
    execute c (fun _ => none) = ({ c with errCount := 0 }, [Event.action]) := by
  unfold execute
  rw [if_pos h]

/-- A failing call in state `closed` that does not reach the threshold. -/
theorem execute_closed_some (c : circuitBreaker) (e : GoError) (h : c.state = closed)
    (hne : c.errCount + 1 ≠ c.settings.failures) :
    execute c (fun _ => some e) = ({ c with errCount := c.errCount + 1 }, [Event.action]) := by
  unfold execute
  rw [if_pos h]
  simp [hne]

/-- Running one more outcome after a sequence. -/
theorem runOutcomes_snoc (c : circuitBreaker) (l : List (Option GoError))
    (x : Option GoError) :
    runOutcomes c (l ++ [x]) = (execute (runOutcomes c l) (fun _ => x)).1 := by
  induction l generalizing c with
  | nil => rfl
  | cons y l ih => simp [runOutcomes, ih]

/-- The longest prefix of `true` values is a block of `true`. -/
theorem takeWhile_id_replicate (l : List Bool) :
    l.takeWhile id = List.replicate (l.takeWhile id).length true := by
  induction l with
  | nil => rfl
  | cons b l ih =>
    cases b with
    | false => simp [List.takeWhile]
    | true =>
      simp only [List.takeWhile, id, List.length_cons, List.replicate_succ]
      rw [← ih]

/-- The trailing run of failures is a block at the end of the sequence. -/
theorem trailingFailures_suffix (outs : List (Option GoError)) :
    List.replicate (trailingFailures outs) true <:+ outs.map Option.isSome := by
  unfold trailingFailures
  have hp := List.takeWhile_prefix id (l := (outs.map Option.isSome).reverse)
  rw [takeWhile_id_replicate] at hp
  have hs := List.reverse_suffix.mpr hp
  rwa [List.reverse_replicate, List.reverse_reverse] at hs

/-- A success ends the trailing run of failures. -/
theorem trailingFailures_snoc_none (l : List (Option GoError)) :
    trailingFailures (l ++ [none]) = 0 := by
  simp [trailingFailures, List.takeWhile]

/-- A failure extends the trailing run of failures by one. -/
theorem trailingFailures_snoc_some (l : List (Option GoError)) (e : GoError) :
    trailingFailures (l ++ [some e]) = trailingFailures l + 1 := by
  simp [trailingFailures, List.takeWhile]

/-- A closed breaker with `errCount` 0 stays closed, and counts the trailing
failures, along any sequence of outcomes without `T` failures in a row. -/
theorem runOutcomes_closed (c0 : circuitBreaker) (T : Nat) (h0 : c0.state = closed)
    (he : c0.errCount = 0) (hT : c0.settings.failures = (T : Int))
    (outs : List (Option GoError))
    (hrun : ¬ List.replicate T true <:+: outs.map Option.isSome) :
    (runOutcomes c0 outs).state = closed ∧
    (runOutcomes c0 outs).errCount = (trailingFailures outs : Int) ∧
    (runOutcomes c0 outs).settings = c0.settings := by
  induction outs using List.reverseRecOn with
  | nil => exact ⟨h0, by simp [runOutcomes, he, trailingFailures], rfl⟩
  | append_singleton l x ih =>
    have hl : ¬ List.replicate T true <:+: l.map Option.isSome := by
      intro hi
      apply hrun
      rw [List.map_append]
      exact hi.trans (List.prefix_append _ _).isInfix
    obtain ⟨hs, hc, hset⟩ := ih hl
    rw [runOutcomes_snoc]
    cases x with
    | none =>
      rw [execute_closed_none _ hs]
      exact ⟨hs, by simp [trailingFailures_snoc_none], hset⟩
    | some e =>
      have hne : (runOutcomes c0 l).errCount + 1 ≠ (runOutcomes c0 l).settings.failures := by
        rw [hc, hset, hT]
        intro heq
        have hnat : trailingFailures l + 1 = T := by exact_mod_cast heq
        apply hrun
        have hsuf := trailingFailures_suffix (l ++ [some e])
        rw [trailingFailures_snoc_some, hnat] at hsuf
        exact hsuf.isInfix
      rw [execute_closed_some _ e hs hne]
      refine ⟨hs, ?_, hset⟩
      simp [trailingFailures_snoc_some, hc]

/-- C9. A freshly constructed breaker with threshold `T ≥ 1` that executes a
sequence of outcomes containing no `T` consecutive failures is `closed` after
every prefix `p` of the sequence (the whole sequence included), and its
`errCount` is then the length of the run of failures that ends `p` (0 when
`p` ends with a success). -/
theorem closed_without_failure_run (s : settings) (T : Nat) (outs p : List (Option GoError))
    (hT : 1 ≤ T) (hs : s.failures = (T : Int))
    (hrun : ¬ List.replicate T true <:+: outs.map Option.isSome) (hp : p <+: outs) :
    (runOutcomes (newCircuitBreaker s) p).state = closed ∧
    (runOutcomes (newCircuitBreaker s) p).errCount = (trailingFailures p : Int) := by
  have hne : ¬ s.failures = 0 := by rw [hs]; exact_mod_cast (by omega : ¬ T = 0)
  have hset : (newCircuitBreaker s).settings.failures = (T : Int) := by
    rw [← hs]
    unfold newCircuitBreaker
    simp only [if_neg hne]
    by_cases hm : s.maxCall = 0 <;> by_cases ht : s.timeout = 0 <;> simp [hm, ht]
  have hpr : ¬ List.replicate T true <:+: p.map Option.isSome := by
    intro hi
    apply hrun
    obtain ⟨t, rfl⟩ := hp
    rw [List.map_append]
    exact hi.trans (List.prefix_append _ _).isInfix
  obtain ⟨h1, h2, _⟩ := runOutcomes_closed (newCircuitBreaker s) T rfl rfl hset p hpr
  exact ⟨h1, h2⟩

/-- Witness of C9: threshold 3 and the outcomes fail, fail, succeed, fail,
fail; the breaker is closed at the end with `errCount` 2, and `errCount` after
the successive prefixes is 1, 2, 0, 1, 2. -/
theorem closed_without_failure_run_witness :
    ((1 : Nat) ≤ 3 ∧
     ¬ List.replicate 3 true <:+:
        [some 1, some 1, none, some 1, some 1].map (Option.isSome (α := GoError))) ∧
    ((runOutcomes (newCircuitBreaker ⟨0, 0, 3, none⟩)
        [some 1, some 1, none, some 1, some 1]).state = closed ∧
     (runOutcomes (newCircuitBreaker ⟨0, 0, 3, none⟩)
        [some 1, some 1, none, some 1, some 1]).errCount
       = (trailingFailures [some 1, some 1, none, some 1, some 1] : Int)) ∧
    ([some 1, some 1, none, some 1, some 1].inits.tail.map
        (fun p => ((runOutcomes (newCircuitBreaker ⟨0, 0, 3, none⟩) p).state,
          (runOutcomes (newCircuitBreaker ⟨0, 0, 3, none⟩) p).errCount)))
      = [(closed, 1), (closed, 2), (closed, 0), (closed, 1), (closed, 2)] :=
  ⟨⟨by decide, by decide⟩,
   closed_without_failure_run ⟨0, 0, 3, none⟩ 3 [some 1, some 1, none, some 1, some 1]
     [some 1, some 1, none, some 1, some 1] (by decide) rfl (by decide)
     (List.prefix_refl _),
   by decide⟩

end CircuitBreaker

/-- The 64-bit wrap leaves a value of the `int64` range as it is. -/
theorem wrapInt64_of_range (x : Int) (hlo : -9223372036854775808 ≤ x)
    (hhi : x < 9223372036854775808) : wrapInt64 x = x := by
  unfold wrapInt64
  omega

namespace Retry

/-- The fallback events hold no wait. -/
theorem waits_fallbackEvents (r : exponentialRetry) : waits (fallbackEvents r) = [] := by
  unfold fallbackEvents
  cases r.fallback <;> rfl

/-- No wait follows the failure report of the last attempt. -/
theorem waitsAfterFail_logFail_fallbackEvents (r : exponentialRetry) (fixed : Int) :
    waitsAfterFail (Event.logFail fixed :: fallbackEvents r) = [] := by
  unfold fallbackEvents
  cases r.fallback <;> rfl

/-- The fallback events hold no action call. -/
theorem actionCalls_fallbackEvents (r : exponentialRetry) :
    actionCalls (fallbackEvents r) = 0 := by
  unfold fallbackEvents
  cases r.fallback <;> rfl

/-- The fallback events call the fallback once when there is one. -/
theorem fallbackCalls_fallbackEvents (r : exponentialRetry) :
    fallbackCalls (fallbackEvents r) = r.fallback.toList := by
  unfold fallbackEvents
  cases r.fallback <;> rfl

/-- With a positive delay whose products with the attempt numbers `i + 1` to
`i + m` stay below `2^63`, `m` failing attempts that are not the last one are
each followed by a completed wait of `delay * attempt`, and the loop goes on
from attempt `i + m`. -/
theorem attempts_failures (r : exponentialRetry) (action : Nat → Option GoError)
    (hd : 0 < r.delay) (m : Nat) :
    ∀ (remaining i : Nat), (∀ j, j < m → action (i + j) ≠ none) →
      (i : Int) + m < r.numOfRetry →
      r.delay * ((i : Int) + (m : Int)) < 9223372036854775808 →
      (attempts r action (remaining + m) i).1 = (attempts r action remaining (i + m)).1 ∧
      actionCalls (attempts r action (remaining + m) i).2
        = m + actionCalls (attempts r action remaining (i + m)).2 ∧
      fallbackCalls (attempts r action (remaining + m) i).2
        = fallbackCalls (attempts r action remaining (i + m)).2 ∧
      waits (attempts r action (remaining + m) i).2
        = (List.range m).map (fun j : Nat => r.delay * ((i : Int) + (j : Int) + 1))
          ++ waits (attempts r action remaining (i + m)).2 ∧
      waitsAfterFail (attempts r action (remaining + m) i).2
        = (List.range m).map
            (fun j : Nat => ((i : Int) + (j : Int) + 1, r.delay * ((i : Int) + (j : Int) + 1)))
          ++ waitsAfterFail (attempts r action remaining (i + m)).2 := by
  induction m with
  | zero => intro remaining i _ _ _; simp
  | succ m ih =>
    intro remaining i hfail hlt hov
    obtain ⟨e, he⟩ := Option.ne_none_iff_exists'.mp (hfail 0 (Nat.succ_pos m))
    rw [Nat.add_zero] at he
    have hfixed : ¬ ((i : Int) + 1 = r.numOfRetry) := by push_cast at hlt; omega
    have hprod : 0 < r.delay * ((i : Int) + 1) := by positivity
    have hsplit : r.delay * ((i : Int) + ((m + 1 : Nat) : Int))
        = r.delay * ((i : Int) + 1) + r.delay * (m : Int) := by push_cast; ring
    have hm0 : 0 ≤ r.delay * (m : Int) := by positivity
    have hwrap : wrapInt64 (r.delay * ((i : Int) + 1)) = r.delay * ((i : Int) + 1) :=
      wrapInt64_of_range _ (by linarith) (by linarith)
    have hpos : ¬ (r.delay * ((i : Int) + 1) ≤ 0) := by linarith
    have hrec := ih remaining (i + 1)
      (fun j hj => by
        have := hfail (j + 1) (by omega)
        rwa [show i + (j + 1) = i + 1 + j by omega] at this)
      (by push_cast at hlt ⊢; omega)
      (by
        have h2 : r.delay * (((i + 1 : Nat) : Int) + (m : Int))
            = r.delay * ((i : Int) + ((m + 1 : Nat) : Int)) := by push_cast; ring
        rw [h2]; exact hov)
    have hidx : i + 1 + m = i + (m + 1) := by omega
    rw [hidx] at hrec
    have hunf : attempts r action (remaining + (m + 1)) i
        = ((attempts r action (remaining + m) (i + 1)).1,
           Event.action :: Event.logFail ((i : Int) + 1) ::
             Event.tick (r.delay * ((i : Int) + 1)) ::
             (attempts r action (remaining + m) (i + 1)).2) := by
      rw [show remaining + (m + 1) = (remaining + m) + 1 by omega]
      simp only [attempts, he, if_neg hfixed, hwrap, if_neg hpos]
    rw [hunf]
    refine ⟨hrec.1, ?_, ?_, ?_, ?_⟩
    · simp only [actionCalls, hrec.2.1]; omega
    · simp only [fallbackCalls, hrec.2.2.1]
    · simp only [waits, hrec.2.2.2.1, List.range_succ_eq_map, List.map_cons, List.map_map,
        List.cons_append, Nat.cast_zero, add_zero, List.cons.injEq, true_and,
        List.append_cancel_right_eq]
      apply List.map_congr_left
      intro j _
      simp only [Function.comp, Nat.succ_eq_add_one]
      push_cast
      ring
    · simp only [waitsAfterFail, hrec.2.2.2.2, List.range_succ_eq_map, List.map_cons,
        List.map_map, List.cons_append, Nat.cast_zero, add_zero, List.cons.injEq, true_and,
        List.append_cancel_right_eq]
      apply List.map_congr_left
      intro j _
      simp only [Function.comp, Nat.succ_eq_add_one]
      push_cast
      rw [Prod.mk.injEq]
      constructor <;> ring

/-- The attempt that ends a run: a success, or a failure of the attempt
number `numOfRetry`. It returns what the action returned, with one action call
and no wait. -/
theorem attempts_last (r : exponentialRetry) (action : Nat → Option GoError)
    (remaining m : Nat) (hend : action m = none ∨ (m : Int) + 1 = r.numOfRetry) :
    (attempts r action (remaining + 1) m).1 = Outcome.returned (action m) ∧
    actionCalls (attempts r action (remaining + 1) m).2 = 1 ∧
    waits (attempts r action (remaining + 1) m).2 = [] ∧
    waitsAfterFail (attempts r action (remaining + 1) m).2 = [] ∧
    fallbackCalls (attempts r action (remaining + 1) m).2
      = (if action m = none then [] else r.fallback.toList) := by
  cases he : action m with
  | none => simp [attempts, he, actionCalls, waits, waitsAfterFail, fallbackCalls]
  | some e =>
    have hfixed : (m : Int) + 1 = r.numOfRetry := by
      rcases hend with h | h
      · rw [he] at h; exact absurd h (by simp)
      · exact h
    simp [attempts, he, hfixed, actionCalls, waits, waitsAfterFail, fallbackCalls,
      waits_fallbackEvents, waitsAfterFail_logFail_fallbackEvents, actionCalls_fallbackEvents,
      fallbackCalls_fallbackEvents]

/-- The sum of the waits `d * 1, ..., d * w`. -/
theorem sum_linear_waits (d : Int) (w : Nat) :
    ((List.range w).map (fun j : Nat => d * ((j : Int) + 1))).sum
      = d * (((w + 1) * w / 2 : Nat) : Int) := by
  induction w with
  | zero => simp
  | succ w ih =>
    have htri : (w + 1 + 1) * (w + 1) / 2 = (w + 1) * w / 2 + (w + 1) := by
      rw [show (w + 1 + 1) * (w + 1) = (w + 1) * w + 2 * (w + 1) by ring]
      exact Nat.add_mul_div_left _ _ (by decide)
    rw [List.range_succ, List.map_append, List.sum_append, ih, htri]
    simp only [List.map_cons, List.map_nil, List.sum_cons, List.sum_nil]
    push_cast
    ring

/-- A run that ends at attempt `m + 1`, after `m` failed attempts whose waits
do not overflow: outcome, action calls, fallback calls and waits. -/
theorem execute_run (r : exponentialRetry) (action : Nat → Option GoError) (m : Nat)
    (hmn : (m : Int) + 1 ≤ r.numOfRetry) (hd : 0 < r.delay)
    (hov : r.delay * (m : Int) < 9223372036854775808)
    (hfail : ∀ j, j < m → action j ≠ none)
    (hend : action m = none ∨ (m : Int) + 1 = r.numOfRetry) :
    (execute r action).1 = Outcome.returned (action m) ∧
    actionCalls (execute r action).2 = m + 1 ∧
    fallbackCalls (execute r action).2 = (if action m = none then [] else r.fallback.toList) ∧
    waits (execute r action).2 = (List.range m).map (fun j : Nat => r.delay * ((j : Int) + 1)) ∧
    waitsAfterFail (execute r action).2
      = (List.range m).map (fun j : Nat => ((j : Int) + 1, r.delay * ((j : Int) + 1))) := by
  obtain ⟨q, hq⟩ : ∃ q, r.numOfRetry.toNat = (q + 1) + m :=
    ⟨r.numOfRetry.toNat - (m + 1), by omega⟩
  have hpre := attempts_failures r action hd m (q + 1) 0
    (fun j hj => by rw [Nat.zero_add]; exact hfail j hj)
    (by push_cast; omega)
    (by push_cast; rw [zero_add]; exact hov)
  rw [Nat.zero_add] at hpre
  obtain ⟨l1, l2, l3, l4, l5⟩ := attempts_last r action q m hend
  unfold execute
  rw [hq, hpre.1, hpre.2.1, hpre.2.2.1, hpre.2.2.2.1, hpre.2.2.2.2, l1, l2, l3, l4, l5]
  simp only [Nat.cast_zero, zero_add, List.append_nil, and_self]

end Retry

namespace Retry

/-- With a positive delay whose waits do not overflow and at least one attempt
allowed, an action that fails on each of its first `numOfRetry` invocations is
invoked `numOfRetry` times, the fallback is called once when there is one, and
the error of the last invocation is returned. -/
theorem execute_all_fail (r : exponentialRetry) (action : Nat → Option GoError) (n : Nat)
    (hn : r.numOfRetry = (n : Int) + 1) (hd : 0 < r.delay)
    (hov : r.delay * (n : Int) < 9223372036854775808)
    (hfail : ∀ j, j ≤ n → action j ≠ none) :
    (execute r action).1 = Outcome.returned (action n) ∧
    actionCalls (execute r action).2 = n + 1 ∧
    fallbackCalls (execute r action).2 = r.fallback.toList := by
  obtain ⟨h1, h2, h3, _, _⟩ := execute_run r action n (by omega) hd hov
    (fun j hj => hfail j (by omega)) (Or.inr hn.symm)
  refine ⟨h1, h2, ?_⟩
  rw [h3, if_neg (hfail n (Nat.le_refl n))]

/-- C6, evaluated on the code. With two attempts allowed, a delay of 0 and an
action that always fails, `execute` invokes the action once, asks
`time.Tick` for a wait of 0 and never returns: the second attempt is not made
and the fallback is not called. With a delay of 10ms the same call makes both
attempts, calls the fallback and returns the last error. -/
theorem zero_delay_never_returns :
    execute (newExponentialRetry 2 2 0 (some 9)) (fun _ => some 1)
      = (Outcome.blocked, [Event.action, Event.logFail 1, Event.tick 0]) ∧
    actionCalls (execute (newExponentialRetry 2 2 0 (some 9)) (fun _ => some 1)).2 = 1 ∧
    fallbackCalls (execute (newExponentialRetry 2 2 0 (some 9)) (fun _ => some 1)).2 = [] ∧
    execute (newExponentialRetry 2 2 10000000 (some 9)) (fun i => some (i + 1))
      = (Outcome.returned (some 2),
          [Event.action, Event.logFail 1, Event.tick 10000000,
           Event.action, Event.logFail 2, Event.fallback 9]) := by
  refine ⟨by decide, by decide, by decide, by decide⟩

/-- C7 fails as stated: three attempts allowed, a positive delay of `2^62`
nanoseconds and an action whose first success is its third invocation. The
wait after the first failure is `2^62`; the wait after the second is
`2^62 * 2`, which wraps to `-2^63` in `int64`, so `time.Tick` yields `nil` and
`execute` never returns: the action is invoked twice, not three times. -/
theorem overflowing_wait_blocks_before_success :
    (0 : Int) < (newExponentialRetry 3 2 4611686018427387904 none).delay ∧
    (3 : Int) ≤ (newExponentialRetry 3 2 4611686018427387904 none).numOfRetry ∧
    ((fun i : Nat => if i < 2 then some (1 : GoError) else none) 0 ≠ none ∧
      (fun i : Nat => if i < 2 then some (1 : GoError) else none) 1 ≠ none ∧
      (fun i : Nat => if i < 2 then some (1 : GoError) else none) 2 = none) ∧
    execute (newExponentialRetry 3 2 4611686018427387904 none)
        (fun i => if i < 2 then some 1 else none)
      = (Outcome.blocked,
          [Event.action, Event.logFail 1, Event.tick 4611686018427387904,
           Event.action, Event.logFail 2, Event.tick (-9223372036854775808)]) ∧
    actionCalls (execute (newExponentialRetry 3 2 4611686018427387904 none)
        (fun i => if i < 2 then some 1 else none)).2 = 2 := by
  refine ⟨by decide, by decide, ⟨by decide, by decide, by decide⟩, by decide, by decide⟩

/-- C7, amended. With a positive delay such that `delay * (k - 1)` is below
`2^63`, an action whose first success is its `k`-th invocation,
`1 ≤ k ≤ numOfRetry`, is invoked exactly `k` times; `execute` returns `nil`
and never calls the fallback. -/
theorem execute_first_success (r : exponentialRetry) (action : Nat → Option GoError)
    (k : Nat) (hk : 1 ≤ k) (hkn : (k : Int) ≤ r.numOfRetry) (hd : 0 < r.delay)
    (hov : r.delay * ((k : Int) - 1) < 9223372036854775808)
    (hfail : ∀ j, j + 1 < k → action j ≠ none) (hsucc : action (k - 1) = none) :
    (execute r action).1 = Outcome.returned none ∧
    actionCalls (execute r action).2 = k ∧
    fallbackCalls (execute r action).2 = [] := by
  obtain ⟨m, rfl⟩ : ∃ m, k = m + 1 := ⟨k - 1, by omega⟩
  rw [Nat.add_sub_cancel] at hsucc
  have hov2 : r.delay * (m : Int) < 9223372036854775808 := by
    have h2 : r.delay * (((m + 1 : Nat) : Int) - 1) = r.delay * (m : Int) := by
      push_cast; ring
    rw [← h2]; exact hov
  obtain ⟨h1, h2, h3, _, _⟩ := execute_run r action m (by push_cast at hkn; omega) hd hov2
    (fun j hj => hfail j (by omega)) (Or.inl hsucc)
  rw [hsucc] at h1
  refine ⟨h1, h2, ?_⟩
  rw [h3, if_pos hsucc]

/-- Witness of C7 as amended: five attempts allowed, a delay of 10ms, and an
action that fails twice and then succeeds: three invocations, `nil` returned,
no fallback call. -/
theorem execute_first_success_witness :
    (execute (newExponentialRetry 5 2 10000000 (some 9))
        (fun i => if i < 2 then some 1 else none)).1 = Outcome.returned none ∧
    actionCalls (execute (newExponentialRetry 5 2 10000000 (some 9))
        (fun i => if i < 2 then some 1 else none)).2 = 3 ∧
    fallbackCalls (execute (newExponentialRetry 5 2 10000000 (some 9))
        (fun i => if i < 2 then some 1 else none)).2 = [] :=
  execute_first_success (newExponentialRetry 5 2 10000000 (some 9))
    (fun i => if i < 2 then some 1 else none) 3 (by decide) (by decide) (by decide)
    (by decide)
    (fun j hj => by
      have hj2 : j < 2 := by omega
      simp [hj2])
    (by decide)

end Retry

namespace Retry

/-- C8 fails as stated: five attempts allowed, a delay of `3 * 2^61`
nanoseconds and an action that always fails. The wait after the first failure
is `delay * 1`; after the second failure the code hands `time.Tick` the
`int64` product `delay * 2`, which is `-2^62` and not `3 * 2^62`, and the wait
never completes. -/
theorem overflowing_wait_not_linear :
    execute (newExponentialRetry 5 2 6917529027641081856 none) (fun _ => some 1)
      = (Outcome.blocked,
          [Event.action, Event.logFail 1, Event.tick 6917529027641081856,
           Event.action, Event.logFail 2, Event.tick (-4611686018427387904)]) ∧
    waitsAfterFail (execute (newExponentialRetry 5 2 6917529027641081856 none)
        (fun _ => some 1)).2
      = [(1, 6917529027641081856), (2, -4611686018427387904)] ∧
    (newExponentialRetry 5 2 6917529027641081856 none).delay * 2 ≠ -4611686018427387904 := by
  refine ⟨by decide, by decide, by decide⟩

/-- C8, amended. Take a positive delay and a run that ends at attempt `k`,
`1 ≤ k ≤ numOfRetry`: attempts 1 to `k - 1` fail, and attempt `k` succeeds or
is attempt number `numOfRetry`; let `delay * (k - 1)` be below `2^63`. Then
`execute` returns what attempt `k` returned after exactly `k` invocations; the
wait after the `j`-th failed attempt, `j < k`, comes right after its failure
report, completes and lasts exactly `delay * j`; there is no other wait, so
none after the attempt that ends the run; and the waits total
`delay * (k * (k - 1) / 2)`. -/
theorem linear_waits_until_return (r : exponentialRetry) (action : Nat → Option GoError)
    (k : Nat) (hk : 1 ≤ k) (hkn : (k : Int) ≤ r.numOfRetry) (hd : 0 < r.delay)
    (hov : r.delay * ((k : Int) - 1) < 9223372036854775808)
    (hfail : ∀ j, j + 1 < k → action j ≠ none)
    (hend : action (k - 1) = none ∨ (k : Int) = r.numOfRetry) :
    (execute r action).1 = Outcome.returned (action (k - 1)) ∧
    actionCalls (execute r action).2 = k ∧
    waitsAfterFail (execute r action).2
      = (List.range (k - 1)).map (fun j : Nat => ((j : Int) + 1, r.delay * ((j : Int) + 1))) ∧
    waits (execute r action).2
      = (List.range (k - 1)).map (fun j : Nat => r.delay * ((j : Int) + 1)) ∧
    (waits (execute r action).2).sum = r.delay * ((k * (k - 1) / 2 : Nat) : Int) := by
  obtain ⟨m, rfl⟩ : ∃ m, k = m + 1 := ⟨k - 1, by omega⟩
  rw [Nat.add_sub_cancel] at hend ⊢
  have hov2 : r.delay * (m : Int) < 9223372036854775808 := by
    have h2 : r.delay * (((m + 1 : Nat) : Int) - 1) = r.delay * (m : Int) := by
      push_cast; ring
    rw [← h2]; exact hov
  have hend2 : action m = none ∨ (m : Int) + 1 = r.numOfRetry := by
    rcases hend with h | h
    · exact Or.inl h
    · right; push_cast at h; exact h
  obtain ⟨h1, h2, _, h4, h5⟩ := execute_run r action m (by push_cast at hkn; omega) hd hov2
    (fun j hj => hfail j (by omega)) hend2
  refine ⟨h1, h2, h5, h4, ?_⟩
  rw [h4]
  exact sum_linear_waits r.delay m

/-- Witness of C8 as amended: a delay of 10ms and an action that fails twice
and then succeeds: the run returns `nil` after three invocations, the waits
are 10ms after attempt 1 and 20ms after attempt 2, 30ms in total. -/
theorem linear_waits_until_return_witness :
    (execute (newExponentialRetry 5 2 10000000 none)
        (fun i => if i < 2 then some 1 else none)).1 = Outcome.returned none ∧
    actionCalls (execute (newExponentialRetry 5 2 10000000 none)
        (fun i => if i < 2 then some 1 else none)).2 = 3 ∧
    waitsAfterFail (execute (newExponentialRetry 5 2 10000000 none)
        (fun i => if i < 2 then some 1 else none)).2 = [(1, 10000000), (2, 20000000)] ∧
    waits (execute (newExponentialRetry 5 2 10000000 none)
        (fun i => if i < 2 then some 1 else none)).2 = [10000000, 20000000] ∧
    (waits (execute (newExponentialRetry 5 2 10000000 none)
        (fun i => if i < 2 then some 1 else none)).2).sum = 30000000 :=
  linear_waits_until_return (newExponentialRetry 5 2 10000000 none)
    (fun i => if i < 2 then some 1 else none) 3 (by decide) (by decide) (by decide)
    (by decide)
    (fun j hj => by
      have hj2 : j < 2 := by omega
      simp [hj2])
    (Or.inl (by decide))

end Retry

namespace CircuitBreaker

/-- C11. For every breaker, the worker handling one scheduled duration `d > 0`
completes and yields the same breaker with `errCount` 0 and state `halfopen`:
`callCount` and the settings are unchanged. -/
theorem stateTransition_effect (c : circuitBreaker) (d : Int) (hd : 0 < d) :
    Option.map Prod.fst (stateTransition c d)
      = some { state := halfopen, callCount := c.callCount, errCount := 0,
               settings := c.settings } := by
  have hn : ¬ d ≤ 0 := by omega
  simp [stateTransition, hn]

/-- Witness of C11: an open breaker with `callCount` 1 and `errCount` 3 handled
after four seconds. -/
theorem stateTransition_effect_witness :
    Option.map Prod.fst (stateTransition ⟨open_, 1, 3, ⟨2, second * 4, 3, some 5⟩⟩ (second * 4))
      = some ⟨halfopen, 1, 0, ⟨2, second * 4, 3, some 5⟩⟩ :=
  stateTransition_effect ⟨open_, 1, 3, ⟨2, second * 4, 3, some 5⟩⟩ (second * 4) (by decide)

/-- A property kept by every `execute` call and every worker step holds after
any sequence of operations. -/
theorem runOps_preserves (P : circuitBreaker → Prop)
    (hexec : ∀ c result, P c → P (execute c (fun _ => result)).1)
    (hrec : ∀ c d c1 tr, P c → stateTransition c d = some (c1, tr) → P c1) :
    ∀ (ops : List Op) (c c2 : circuitBreaker) (tr : List Event),
      P c → runOps c ops = some (c2, tr) → P c2 := by
  intro ops
  induction ops with
  | nil =>
    intro c c2 tr hP h
    simp only [runOps, Option.some.injEq, Prod.mk.injEq] at h
    rw [← h.1]; exact hP
  | cons op ops ih =>
    intro c c2 tr hP h
    cases hop : applyOp c op with
    | none => simp [runOps, hop] at h
    | some p =>
      obtain ⟨c1, tr1⟩ := p
      simp only [runOps, hop] at h
      have hP1 : P c1 := by
        cases op with
        | exec result =>
          simp only [applyOp, Option.some.injEq] at hop
          have := hexec c result hP
          rw [hop] at this
          exact this
        | recover d => exact hrec c d c1 tr1 hP hop
      cases hrest : runOps c1 ops with
      | none => rw [hrest] at h; simp at h
      | some q =>
        obtain ⟨c3, tr3⟩ := q
        rw [hrest] at h
        simp only [Option.some.injEq, Prod.mk.injEq] at h
        rw [← h.1]
        exact ih c1 c3 tr3 hP1 hrest

/-- What a worker step returns. -/
theorem stateTransition_some (c : circuitBreaker) (d : Int) (c1 : circuitBreaker)
    (tr : List Event) (h : stateTransition c d = some (c1, tr)) :
    c1 = { c with errCount := 0, state := halfopen } := by
  unfold stateTransition at h
  by_cases hd : d ≤ 0
  · simp [hd] at h
  · simp only [if_neg hd, Option.some.injEq, Prod.mk.injEq] at h
    exact h.1.symm

/-- `execute` never writes the settings. -/
theorem execute_settings (c : circuitBreaker) (action : Unit → Option GoError) :
    (execute c action).1.settings = c.settings := by
  unfold execute restoreIfDone
  split_ifs <;> (try cases action ()) <;> simp <;> split_ifs <;> rfl

end CircuitBreaker

namespace CircuitBreaker

/-- A failing call in state `closed` that reaches the threshold. -/
theorem execute_closed_trip (c : circuitBreaker) (e : GoError) (h : c.state = closed)
    (hthr : c.errCount + 1 = c.settings.failures) :
    execute c (fun _ => some e)
      = ({ c with errCount := c.errCount + 1, state := open_ },
          [Event.action, Event.send c.settings.timeout]) := by
  unfold execute
  rw [if_pos h]
  simp [hthr]

/-- A call in a state that is neither `closed` nor `halfopen` returns the
breaker as it is. -/
theorem execute_rejected (c : circuitBreaker) (action : Unit → Option GoError)
    (h0 : c.state ≠ closed) (h2 : c.state ≠ halfopen) :
    (execute c action).1 = c ∧ sends (execute c action).2 = [] := by
  unfold execute
  rw [if_neg h0, if_neg h2]
  cases c.settings.fallback <;> simp [sends]

/-- The breaker returned by the tail of the `halfopen` branch. -/
theorem restoreIfDone_fst (c : circuitBreaker) (tr : List Event) :
    (restoreIfDone c tr).1
      = (if c.callCount = c.settings.maxCall then { c with state := closed } else c) := by
  unfold restoreIfDone
  split_ifs <;> rfl

/-- What the tail of the `halfopen` branch sends: what was sent before it. -/
theorem restoreIfDone_sends (c : circuitBreaker) (tr : List Event) :
    sends (restoreIfDone c tr).2 = sends tr := by
  have happ : ∀ l : List Event, sends (l ++ [Event.log Msg.stateRestored]) = sends l := by
    intro l
    induction l with
    | nil => rfl
    | cons x l ih => cases x <;> simp [sends, ih]
  unfold restoreIfDone
  split_ifs
  · exact happ tr
  · rfl

/-- The breaker returned by a call in state `halfopen`. -/
theorem execute_halfopen_fst (c : circuitBreaker) (result : Option GoError)
    (h : c.state = halfopen) :
    (execute c (fun _ => result)).1 =
      (if c.callCount < c.settings.maxCall then
        (match result with
         | some _ => { c with callCount := 0, state := open_ }
         | none =>
           if c.callCount + 1 = c.settings.maxCall then
             { c with callCount := c.callCount + 1, state := closed }
           else { c with callCount := c.callCount + 1 })
       else if c.callCount = c.settings.maxCall then { c with state := closed } else c) := by
  have h0 : ¬ c.state = closed := by rw [h]; decide
  unfold execute
  rw [if_neg h0, if_pos h]
  by_cases hlt : c.callCount < c.settings.maxCall
  · rw [if_pos hlt, if_pos hlt]
    cases result with
    | none => simp only [restoreIfDone_fst]
    | some e => rfl
  · rw [if_neg hlt, if_neg hlt, restoreIfDone_fst]

/-- A call in state `halfopen` leaves `errCount` alone and ends in one of the
three states. -/
theorem execute_halfopen_errCount (c : circuitBreaker) (result : Option GoError)
    (h : c.state = halfopen) :
    (execute c (fun _ => result)).1.errCount = c.errCount ∧
    ((execute c (fun _ => result)).1.state = closed ∨
      (execute c (fun _ => result)).1.state = open_ ∨
      (execute c (fun _ => result)).1.state = halfopen) := by
  rw [execute_halfopen_fst c result h]
  by_cases h1 : c.callCount < c.settings.maxCall
  · rw [if_pos h1]
    cases result with
    | none =>
      by_cases h2 : c.callCount + 1 = c.settings.maxCall
      · simp only [if_pos h2]
        exact ⟨trivial, Or.inl trivial⟩
      · simp only [if_neg h2]
        exact ⟨trivial, Or.inr (Or.inr h)⟩
    | some e => exact ⟨rfl, Or.inr (Or.inl rfl)⟩
  · rw [if_neg h1]
    by_cases h2 : c.callCount = c.settings.maxCall
    · rw [if_pos h2]
      exact ⟨rfl, Or.inl rfl⟩
    · rw [if_neg h2]
      exact ⟨rfl, Or.inr (Or.inr h)⟩

/-- The facts about `errCount` and the state that every `execute` call keeps,
for a threshold `F`: the state is one of the three constants, `errCount` is 0
in state `halfopen`, and when `F ≥ 1`, `errCount ≤ F` with `errCount < F` in
state `closed`. -/
theorem execute_keeps_errCount_bounds (F : Int) (c : circuitBreaker) (result : Option GoError)
    (h : c.settings.failures = F ∧
      (c.state = closed ∨ c.state = open_ ∨ c.state = halfopen) ∧
      (c.state = halfopen → c.errCount = 0) ∧
      (1 ≤ F → c.errCount ≤ F ∧ (c.state = closed → c.errCount < F))) :
    (execute c (fun _ => result)).1.settings.failures = F ∧
      ((execute c (fun _ => result)).1.state = closed ∨
        (execute c (fun _ => result)).1.state = open_ ∨
        (execute c (fun _ => result)).1.state = halfopen) ∧
      ((execute c (fun _ => result)).1.state = halfopen →
        (execute c (fun _ => result)).1.errCount = 0) ∧
      (1 ≤ F → (execute c (fun _ => result)).1.errCount ≤ F ∧
        ((execute c (fun _ => result)).1.state = closed →
          (execute c (fun _ => result)).1.errCount < F)) := by
  obtain ⟨hF, hst, hho, hb⟩ := h
  have h01 : closed ≠ open_ := by decide
  have h02 : closed ≠ halfopen := by decide
  have h12 : open_ ≠ halfopen := by decide
  refine ⟨by rw [execute_settings]; exact hF, ?_⟩
  rcases hst with hs | hs | hs
  · -- closed
    cases result with
    | none =>
      rw [execute_closed_none c hs]
      refine ⟨Or.inl hs, fun h2 => absurd (hs.symm.trans h2) h02, fun hF1 => ⟨?_, fun _ => ?_⟩⟩
      · show (0 : Int) ≤ F
        omega
      · show (0 : Int) < F
        omega
    | some e =>
      by_cases hthr : c.errCount + 1 = c.settings.failures
      · rw [execute_closed_trip c e hs hthr]
        refine ⟨Or.inr (Or.inl rfl), fun h2 => absurd h2 h12,
          fun _ => ⟨?_, fun h2 => absurd h2.symm h01⟩⟩
        show c.errCount + 1 ≤ F
        omega
      · rw [execute_closed_some c e hs hthr]
        refine ⟨Or.inl hs, fun h2 => absurd (hs.symm.trans h2) h02, fun hF1 => ?_⟩
        have hlt := (hb hF1).2 hs
        refine ⟨?_, fun _ => ?_⟩
        · show c.errCount + 1 ≤ F
          omega
        · show c.errCount + 1 < F
          omega
  · -- open
    have hn0 : c.state ≠ closed := fun h2 => h01 (h2.symm.trans hs)
    have hn2 : c.state ≠ halfopen := fun h2 => h12 (hs.symm.trans h2)
    rw [(execute_rejected c _ hn0 hn2).1]
    exact ⟨Or.inr (Or.inl hs), fun h2 => absurd h2 hn2, fun hF1 =>
      ⟨(hb hF1).1, fun h2 => absurd h2 hn0⟩⟩
  · -- halfopen
    obtain ⟨herr, hstate⟩ := execute_halfopen_errCount c result hs
    have he := hho hs
    refine ⟨hstate, fun _ => by rw [herr]; exact he, fun hF1 => ?_⟩
    rw [herr, he]
    exact ⟨by omega, fun _ => by omega⟩

/-- The same facts are kept by every worker step. -/
theorem stateTransition_keeps_errCount_bounds (F : Int) (c : circuitBreaker) (d : Int)
    (c1 : circuitBreaker) (tr : List Event)
    (h : c.settings.failures = F ∧
      (c.state = closed ∨ c.state = open_ ∨ c.state = halfopen) ∧
      (c.state = halfopen → c.errCount = 0) ∧
      (1 ≤ F → c.errCount ≤ F ∧ (c.state = closed → c.errCount < F)))
    (hstep : stateTransition c d = some (c1, tr)) :
    c1.settings.failures = F ∧
      (c1.state = closed ∨ c1.state = open_ ∨ c1.state = halfopen) ∧
      (c1.state = halfopen → c1.errCount = 0) ∧
      (1 ≤ F → c1.errCount ≤ F ∧ (c1.state = closed → c1.errCount < F)) := by
  rw [stateTransition_some c d c1 tr hstep]
  refine ⟨h.1, Or.inr (Or.inr rfl), fun _ => rfl, fun hF1 => ⟨?_, fun _ => ?_⟩⟩
  · show (0 : Int) ≤ F
    omega
  · show (0 : Int) < F
    omega

/-- After any sequence of operations on a constructed breaker: the threshold
is the one set at construction, the state is one of the three constants,
`errCount` is 0 in state `halfopen`, and when the threshold is at least 1,
`errCount` is at most the threshold and below it in state `closed`. -/
theorem reachable_errCount_bounds (s : settings) (ops : List Op) (c : circuitBreaker)
    (tr : List Event) (h : runOps (newCircuitBreaker s) ops = some (c, tr)) :
    c.settings.failures = (newCircuitBreaker s).settings.failures ∧
      (c.state = closed ∨ c.state = open_ ∨ c.state = halfopen) ∧
      (c.state = halfopen → c.errCount = 0) ∧
      (1 ≤ (newCircuitBreaker s).settings.failures →
        c.errCount ≤ (newCircuitBreaker s).settings.failures ∧
        (c.state = closed → c.errCount < (newCircuitBreaker s).settings.failures)) := by
  refine runOps_preserves
    (fun c => c.settings.failures = (newCircuitBreaker s).settings.failures ∧
      (c.state = closed ∨ c.state = open_ ∨ c.state = halfopen) ∧
      (c.state = halfopen → c.errCount = 0) ∧
      (1 ≤ (newCircuitBreaker s).settings.failures →
        c.errCount ≤ (newCircuitBreaker s).settings.failures ∧
        (c.state = closed → c.errCount < (newCircuitBreaker s).settings.failures)))
    (fun c result hc => execute_keeps_errCount_bounds _ c result hc)
    (fun c d c1 tr hc hstep => stateTransition_keeps_errCount_bounds _ c d c1 tr hc hstep)
    ops (newCircuitBreaker s) c tr ?_ h
  refine ⟨rfl, Or.inl rfl, fun h2 => absurd (show closed = halfopen from h2) (by decide),
    fun hF1 => ⟨?_, fun _ => ?_⟩⟩
  · show (0 : Int) ≤ _
    omega
  · show (0 : Int) < _
    omega

/-- The constructor keeps a threshold that is not 0. -/
theorem newCircuitBreaker_failures (s : settings) (h : s.failures ≠ 0) :
    (newCircuitBreaker s).settings.failures = s.failures := by
  unfold newCircuitBreaker
  simp only [if_neg h]
  by_cases hm : s.maxCall = 0 <;> by_cases ht : s.timeout = 0 <;> simp [hm, ht]

end CircuitBreaker

namespace CircuitBreaker

/-- What a call in state `halfopen` sends: the timeout when an admitted action
fails, nothing otherwise. -/
theorem execute_halfopen_sends (c : circuitBreaker) (result : Option GoError)
    (h : c.state = halfopen) :
    sends (execute c (fun _ => result)).2 =
      (if c.callCount < c.settings.maxCall then
        (match result with
         | some _ => [c.settings.timeout]
         | none => [])
       else []) := by
  have h0 : ¬ c.state = closed := by rw [h]; decide
  unfold execute
  rw [if_neg h0, if_pos h]
  by_cases hlt : c.callCount < c.settings.maxCall
  · rw [if_pos hlt, if_pos hlt]
    cases result with
    | none => simp only [restoreIfDone_sends]; rfl
    | some e => rfl
  · rw [if_neg hlt, if_neg hlt, restoreIfDone_sends]
    rfl

/-- One `execute` call sends the timeout once when it moves the breaker from
`closed` or `halfopen` to `open`, and sends nothing otherwise. -/
theorem execute_sends (c : circuitBreaker) (result : Option GoError) :
    sends (execute c (fun _ => result)).2 =
      (if (c.state = closed ∨ c.state = halfopen) ∧
          (execute c (fun _ => result)).1.state = open_ then
        [c.settings.timeout]
      else []) := by
  have h01 : ¬ closed = open_ := by decide
  have h21 : ¬ halfopen = open_ := by decide
  by_cases h0 : c.state = closed
  · cases result with
    | none =>
      rw [execute_closed_none c h0]
      have hne : ¬ c.state = open_ := by rw [h0]; exact h01
      simp [sends, hne]
    | some e =>
      by_cases hthr : c.errCount + 1 = c.settings.failures
      · rw [execute_closed_trip c e h0 hthr]
        simp [sends, h0]
      · rw [execute_closed_some c e h0 hthr]
        have hne : ¬ c.state = open_ := by rw [h0]; exact h01
        simp [sends, hne]
  · by_cases h2 : c.state = halfopen
    · rw [execute_halfopen_sends c result h2, execute_halfopen_fst c result h2]
      have hne : ¬ c.state = open_ := by rw [h2]; exact h21
      by_cases hlt : c.callCount < c.settings.maxCall
      · rw [if_pos hlt, if_pos hlt]
        cases result with
        | none =>
          by_cases hd : c.callCount + 1 = c.settings.maxCall
          · simp [hd, h2, h01]
          · simp [hd, h2, h21]
        | some e => simp [h2]
      · rw [if_neg hlt, if_neg hlt]
        by_cases hd : c.callCount = c.settings.maxCall
        · simp [hd, h01]
        · simp [hd, hne]
    · obtain ⟨hc, hsend⟩ := execute_rejected c (fun _ => result) h0 h2
      rw [hsend]
      simp [h0, h2]

/-- A call from one of the three states ends in one of the three states. -/
theorem execute_state (c : circuitBreaker) (result : Option GoError)
    (h : c.state = closed ∨ c.state = open_ ∨ c.state = halfopen) :
    (execute c (fun _ => result)).1.state = closed ∨
      (execute c (fun _ => result)).1.state = open_ ∨
      (execute c (fun _ => result)).1.state = halfopen := by
  rcases h with hs | hs | hs
  · cases result with
    | none => rw [execute_closed_none c hs]; exact Or.inl hs
    | some e =>
      by_cases hthr : c.errCount + 1 = c.settings.failures
      · rw [execute_closed_trip c e hs hthr]; exact Or.inr (Or.inl rfl)
      · rw [execute_closed_some c e hs hthr]; exact Or.inl hs
  · have hn0 : c.state ≠ closed := by rw [hs]; decide
    have hn2 : c.state ≠ halfopen := by rw [hs]; decide
    rw [(execute_rejected c _ hn0 hn2).1]
    exact Or.inr (Or.inl hs)
  · exact (execute_halfopen_errCount c result hs).2

/-- C12. After any sequence of `execute` calls and worker steps on a breaker
constructed with `failures ≥ 1`, `errCount ≤ failures`; and an `execute` call
made then in state `closed` that leaves `errCount` equal to `failures` leaves
the breaker in state `open`. -/
theorem errCount_le_threshold (s : settings) (ops : List Op) (c : circuitBreaker)
    (tr : List Event) (hT : 1 ≤ s.failures)
    (h : runOps (newCircuitBreaker s) ops = some (c, tr)) :
    c.errCount ≤ s.failures ∧
    (∀ result : Option GoError, c.state = closed →
      (execute c (fun _ => result)).1.errCount = s.failures →
      (execute c (fun _ => result)).1.state = open_) := by
  have hF : (newCircuitBreaker s).settings.failures = s.failures :=
    newCircuitBreaker_failures s (by omega)
  obtain ⟨hset, _, _, hb⟩ := reachable_errCount_bounds s ops c tr h
  rw [hF] at hset hb
  refine ⟨(hb hT).1, ?_⟩
  intro result hs heq
  cases result with
  | none =>
    rw [execute_closed_none c hs] at heq
    have h0 : (0 : Int) = s.failures := heq
    omega
  | some e =>
    by_cases hthr : c.errCount + 1 = c.settings.failures
    · rw [execute_closed_trip c e hs hthr]
    · rw [execute_closed_some c e hs hthr] at heq
      have h1 : c.errCount + 1 = s.failures := heq
      rw [hset] at hthr
      exact absurd h1 hthr

/-- C13. After any sequence of `execute` calls and worker steps on a
constructed breaker, `errCount` is 0 whenever the state is `halfopen`. An
`execute` call that then moves the breaker to `closed` leaves `errCount` 0,
and after any number of successful calls the first failing call sets
`errCount` to 1. -/
theorem halfopen_errCount_zero (s : settings) (ops : List Op) (c : circuitBreaker)
    (tr : List Event) (h : runOps (newCircuitBreaker s) ops = some (c, tr))
    (hs : c.state = halfopen) :
    c.errCount = 0 ∧
    (∀ result : Option GoError, (execute c (fun _ => result)).1.state = closed →
      (execute c (fun _ => result)).1.errCount = 0 ∧
      ∀ (k : Nat) (e : GoError),
        (runOutcomes (execute c (fun _ => result)).1
          (List.replicate k none ++ [some e])).errCount = 1) := by
  obtain ⟨_, _, hho, _⟩ := reachable_errCount_bounds s ops c tr h
  have he := hho hs
  refine ⟨he, ?_⟩
  intro result hcl
  have herr : (execute c (fun _ => result)).1.errCount = 0 := by
    rw [(execute_halfopen_errCount c result hs).1, he]
  refine ⟨herr, ?_⟩
  intro k e
  generalize (execute c (fun _ => result)).1 = c1 at hcl herr
  have hsame : runOutcomes c1 (List.replicate k none) = c1 := by
    induction k with
    | zero => rfl
    | succ k ih =>
      rw [List.replicate_succ]
      simp only [runOutcomes]
      rw [execute_closed_none c1 hcl]
      have hc1 : ({ c1 with errCount := 0 } : circuitBreaker) = c1 := by
        cases c1
        simp only at herr
        simp [herr]
      rw [hc1]
      exact ih
  rw [runOutcomes_snoc, hsame]
  by_cases hthr : c1.errCount + 1 = c1.settings.failures
  · rw [execute_closed_trip c1 e hcl hthr]
    show c1.errCount + 1 = 1
    omega
  · rw [execute_closed_some c1 e hcl hthr]
    show c1.errCount + 1 = 1
    omega

end CircuitBreaker

namespace CircuitBreaker

/-- Witness of C12: threshold 2; after one failing call the breaker is closed
with `errCount` 1, and the next failing call makes `errCount` equal to 2 and
opens it. -/
theorem errCount_le_threshold_witness :
    ((1 : Int) ≤ (⟨2, second, 2, none⟩ : settings).failures ∧
      runOps (newCircuitBreaker ⟨2, second, 2, none⟩) [Op.exec (some 1)]
        = some (⟨closed, 0, 1, ⟨2, second, 2, none⟩⟩, [Event.action])) ∧
    (1 : Int) ≤ 2 ∧
    (execute ⟨closed, 0, 1, ⟨2, second, 2, none⟩⟩ (fun _ => some 1)).1.state = open_ :=
  ⟨⟨by decide, rfl⟩,
   (errCount_le_threshold ⟨2, second, 2, none⟩ [Op.exec (some 1)]
      ⟨closed, 0, 1, ⟨2, second, 2, none⟩⟩ [Event.action] (by decide) rfl).1,
   (errCount_le_threshold ⟨2, second, 2, none⟩ [Op.exec (some 1)]
      ⟨closed, 0, 1, ⟨2, second, 2, none⟩⟩ [Event.action] (by decide) rfl).2
      (some 1) rfl rfl⟩

/-- Witness of C13: threshold 2 and `maxCall` 1; two failing calls and a worker
step leave the breaker half-open with `errCount` 0; a successful call closes
it with `errCount` 0, and after two more successes a failing call sets
`errCount` to 1. -/
theorem halfopen_errCount_zero_witness :
    runOps (newCircuitBreaker ⟨1, second, 2, none⟩)
        [Op.exec (some 1), Op.exec (some 1), Op.recover second]
      = some (⟨halfopen, 0, 0, ⟨1, second, 2, none⟩⟩,
          [Event.action, Event.action, Event.send second, Event.log Msg.enteringHalfOpen]) ∧
    (⟨halfopen, 0, 0, ⟨1, second, 2, none⟩⟩ : circuitBreaker).errCount = 0 ∧
    (execute ⟨halfopen, 0, 0, ⟨1, second, 2, none⟩⟩ (fun _ => none)).1.errCount = 0 ∧
    (runOutcomes (execute ⟨halfopen, 0, 0, ⟨1, second, 2, none⟩⟩ (fun _ => none)).1
      (List.replicate 2 none ++ [some 4])).errCount = 1 :=
  ⟨rfl,
   (halfopen_errCount_zero ⟨1, second, 2, none⟩
      [Op.exec (some 1), Op.exec (some 1), Op.recover second]
      ⟨halfopen, 0, 0, ⟨1, second, 2, none⟩⟩
      [Event.action, Event.action, Event.send second, Event.log Msg.enteringHalfOpen]
      rfl rfl).1,
   ((halfopen_errCount_zero ⟨1, second, 2, none⟩
      [Op.exec (some 1), Op.exec (some 1), Op.recover second]
      ⟨halfopen, 0, 0, ⟨1, second, 2, none⟩⟩
      [Event.action, Event.action, Event.send second, Event.log Msg.enteringHalfOpen]
      rfl rfl).2 none rfl).1,
   ((halfopen_errCount_zero ⟨1, second, 2, none⟩
      [Op.exec (some 1), Op.exec (some 1), Op.recover second]
      ⟨halfopen, 0, 0, ⟨1, second, 2, none⟩⟩
      [Event.action, Event.action, Event.send second, Event.log Msg.enteringHalfOpen]
      rfl rfl).2 none rfl).2 2 4⟩

/-- C16, evaluated on the code. A breaker built with the defaults fails once,
is recovered by the worker and then succeeds once: it is `closed` with
`callCount` 1. A further failing call opens it with `callCount` still 1. -/
theorem callCount_kept_after_restore :
    Option.map Prod.fst (runOps (newCircuitBreaker ⟨0, 0, 0, none⟩)
        [Op.exec (some 1), Op.recover (second * 4), Op.exec none])
      = some ⟨closed, 1, 0, ⟨1, second * 4, 1, none⟩⟩ ∧
    Option.map Prod.fst (runOps (newCircuitBreaker ⟨0, 0, 0, none⟩)
        [Op.exec (some 1), Op.recover (second * 4), Op.exec none, Op.exec (some 1)])
      = some ⟨open_, 1, 1, ⟨1, second * 4, 1, none⟩⟩ ∧
    sends (execute ⟨closed, 0, 0, ⟨1, second * 4, 1, none⟩⟩ (fun _ => some 1)).2
      = [second * 4] := by
  refine ⟨by decide, by decide, by decide⟩

/-- C17 fails as stated: a breaker built with the defaults that fails once is
in state `open`, not `closed`, with `errCount` 1; the move from `closed` to
`open` did not reset `errCount`. -/
theorem errCount_kept_in_open :
    runOps (newCircuitBreaker ⟨0, 0, 0, none⟩) [Op.exec (some 1)]
      = some (⟨open_, 0, 1, ⟨1, second * 4, 1, none⟩⟩,
          [Event.action, Event.send (second * 4)]) ∧
    (0 : Int) < (⟨open_, 0, 1, ⟨1, second * 4, 1, none⟩⟩ : circuitBreaker).errCount ∧
    (⟨open_, 0, 1, ⟨1, second * 4, 1, none⟩⟩ : circuitBreaker).state ≠ closed := by
  refine ⟨by decide, by decide, by decide⟩

/-- C17, amended. After any sequence of `execute` calls and worker steps on a
constructed breaker, `errCount > 0` implies that the state is `closed` or
`open`. `errCount` is 0 after every worker step (every move into `halfopen`)
and after every move from `halfopen` to `open`; a move from `closed` to `open`
leaves `errCount` equal to `failures`. -/
theorem errCount_pos_closed_or_open (s : settings) (ops : List Op) (c : circuitBreaker)
    (tr : List Event) (h : runOps (newCircuitBreaker s) ops = some (c, tr)) :
    (0 < c.errCount → c.state = closed ∨ c.state = open_) ∧
    (∀ (d : Int) (c1 : circuitBreaker) (tr1 : List Event),
      stateTransition c d = some (c1, tr1) → c1.state = halfopen ∧ c1.errCount = 0) ∧
    (∀ result : Option GoError, c.state = halfopen →
      (execute c (fun _ => result)).1.state = open_ →
      (execute c (fun _ => result)).1.errCount = 0) ∧
    (∀ result : Option GoError, c.state = closed →
      (execute c (fun _ => result)).1.state = open_ →
      (execute c (fun _ => result)).1.errCount = c.settings.failures) := by
  obtain ⟨_, hst, hho, _⟩ := reachable_errCount_bounds s ops c tr h
  refine ⟨?_, ?_, ?_, ?_⟩
  · intro hpos
    rcases hst with hs | hs | hs
    · exact Or.inl hs
    · exact Or.inr hs
    · have := hho hs
      omega
  · intro d c1 tr1 hstep
    rw [stateTransition_some c d c1 tr1 hstep]
    exact ⟨rfl, rfl⟩
  · intro result hs _
    rw [(execute_halfopen_errCount c result hs).1]
    exact hho hs
  · intro result hs hopen
    have h01 : ¬ closed = open_ := by decide
    cases result with
    | none =>
      rw [execute_closed_none c hs] at hopen
      exact absurd (hs.symm.trans hopen) h01
    | some e =>
      by_cases hthr : c.errCount + 1 = c.settings.failures
      · rw [execute_closed_trip c e hs hthr]
        exact hthr
      · rw [execute_closed_some c e hs hthr] at hopen
        exact absurd (hs.symm.trans hopen) h01

/-- Witness of C17 as amended: threshold 2; after two failing calls the breaker
is open with `errCount` 2, and the worker step that follows yields a half-open
breaker with `errCount` 0. -/
theorem errCount_pos_closed_or_open_witness :
    runOps (newCircuitBreaker ⟨2, second, 2, none⟩) [Op.exec (some 1), Op.exec (some 1)]
      = some (⟨open_, 0, 2, ⟨2, second, 2, none⟩⟩,
          [Event.action, Event.action, Event.send second]) ∧
    ((0 : Int) < 2 → open_ = closed ∨ open_ = open_) ∧
    ((⟨halfopen, 0, 0, ⟨2, second, 2, none⟩⟩ : circuitBreaker).state = halfopen ∧
      (⟨halfopen, 0, 0, ⟨2, second, 2, none⟩⟩ : circuitBreaker).errCount = 0) :=
  ⟨rfl,
   (errCount_pos_closed_or_open ⟨2, second, 2, none⟩ [Op.exec (some 1), Op.exec (some 1)]
      ⟨open_, 0, 2, ⟨2, second, 2, none⟩⟩ [Event.action, Event.action, Event.send second]
      rfl).1,
   (errCount_pos_closed_or_open ⟨2, second, 2, none⟩ [Op.exec (some 1), Op.exec (some 1)]
      ⟨open_, 0, 2, ⟨2, second, 2, none⟩⟩ [Event.action, Event.action, Event.send second]
      rfl).2.1 second ⟨halfopen, 0, 0, ⟨2, second, 2, none⟩⟩ [Event.log Msg.enteringHalfOpen]
      rfl⟩

/-- C19. One `execute` call sends exactly one duration, `settings.timeout`,
when it moves the breaker from `closed` or `halfopen` to `open`, and sends
nothing otherwise; it never changes the settings. -/
theorem send_iff_opened (c : circuitBreaker) (action : Unit → Option GoError) :
    sends (execute c action).2 =
      (if (c.state = closed ∨ c.state = halfopen) ∧ (execute c action).1.state = open_ then
        [c.settings.timeout]
      else []) ∧
    (execute c action).1.settings = c.settings :=
  ⟨execute_sends c (action ()), execute_settings c action⟩

end CircuitBreaker

namespace CircuitBreaker

/-- A property kept by every step of a breaker and its worker holds after any
sequence of steps. -/
theorem sysRun_preserves (P : system → Prop)
    (hstep : ∀ sys op sys1, P sys → sysStep sys op = some sys1 → P sys1) :
    ∀ (ops : List SysOp) (sys sys2 : system), P sys → sysRun sys ops = some sys2 → P sys2 := by
  intro ops
  induction ops with
  | nil =>
    intro sys sys2 hP h
    simp only [sysRun, Option.some.injEq] at h
    rw [← h]; exact hP
  | cons op ops ih =>
    intro sys sys2 hP h
    cases hop : sysStep sys op with
    | none => simp [sysRun, hop] at h
    | some sys1 =>
      simp only [sysRun, hop] at h
      exact ih sys1 sys2 (hstep sys op sys1 hP hop) h

/-- Every step keeps: the state is one of the three constants, and the pending
durations are the single timeout in state `open` and none otherwise. -/
theorem sysStep_keeps_pending (sys : system) (op : SysOp) (sys1 : system)
    (h : (sys.cb.state = closed ∨ sys.cb.state = open_ ∨ sys.cb.state = halfopen) ∧
      sys.pending = (if sys.cb.state = open_ then [sys.cb.settings.timeout] else []))
    (hstep : sysStep sys op = some sys1) :
    (sys1.cb.state = closed ∨ sys1.cb.state = open_ ∨ sys1.cb.state = halfopen) ∧
      sys1.pending = (if sys1.cb.state = open_ then [sys1.cb.settings.timeout] else []) := by
  obtain ⟨hst, hpend⟩ := h
  cases op with
  | call result =>
    simp only [sysStep, Option.some.injEq] at hstep
    rw [← hstep]
    refine ⟨execute_state sys.cb result hst, ?_⟩
    show sys.pending ++ sends (execute sys.cb (fun _ => result)).2
      = (if (execute sys.cb (fun _ => result)).1.state = open_ then
          [(execute sys.cb (fun _ => result)).1.settings.timeout] else [])
    rw [execute_settings, execute_sends, hpend]
    by_cases hopen : sys.cb.state = open_
    · have hn0 : sys.cb.state ≠ closed := by rw [hopen]; decide
      have hn2 : sys.cb.state ≠ halfopen := by rw [hopen]; decide
      rw [(execute_rejected sys.cb _ hn0 hn2).1]
      have h10 : ¬ open_ = closed := by decide
      have h12 : ¬ open_ = halfopen := by decide
      simp [hopen, h10, h12]
    · have hcl : sys.cb.state = closed ∨ sys.cb.state = halfopen := by
        rcases hst with hs | hs | hs
        · exact Or.inl hs
        · exact absurd hs hopen
        · exact Or.inr hs
      simp [hopen, hcl]
  | deliver =>
    simp only [sysStep] at hstep
    cases hp : sys.pending with
    | nil => simp [hp] at hstep
    | cons d rest =>
      have hopen : sys.cb.state = open_ := by
        by_contra hne
        rw [if_neg hne, hp] at hpend
        exact List.cons_ne_nil _ _ hpend
      have hrest : rest = [] := by
        rw [if_pos hopen, hp] at hpend
        exact (List.cons.inj hpend).2
      cases ht : stateTransition sys.cb d with
      | none => simp [hp, ht] at hstep
      | some q =>
        obtain ⟨c1, tr1⟩ := q
        simp only [hp, ht, Option.some.injEq] at hstep
        rw [← hstep, stateTransition_some sys.cb d c1 tr1 ht, hrest]
        refine ⟨Or.inr (Or.inr rfl), ?_⟩
        show ([] : List Int) = (if halfopen = open_ then _ else [])
        rw [if_neg (by decide)]

/-- C20. With the scheduled and not yet applied recovery events kept as a
queue: after any sequence of `execute` calls and worker steps on a constructed
breaker, the queue holds exactly one event, `settings.timeout`, when the state
is `open` and is empty otherwise. So a worker step only ever applies an event
in state `open`, and an `execute` call that sends an event finds the queue
empty. -/
theorem pending_iff_open (s : settings) (ops : List SysOp) (sys : system)
    (h : sysRun (newSystem s) ops = some sys) :
    sys.pending = (if sys.cb.state = open_ then [sys.cb.settings.timeout] else []) ∧
    (sys.pending ≠ [] → sys.cb.state = open_) ∧
    (∀ result : Option GoError,
      sends (execute sys.cb (fun _ => result)).2 ≠ [] → sys.pending = []) := by
  have hinv := sysRun_preserves
    (fun sys => (sys.cb.state = closed ∨ sys.cb.state = open_ ∨ sys.cb.state = halfopen) ∧
      sys.pending = (if sys.cb.state = open_ then [sys.cb.settings.timeout] else []))
    (fun sys op sys1 hP hstep => sysStep_keeps_pending sys op sys1 hP hstep)
    ops (newSystem s) sys
    ⟨Or.inl rfl, by
      show ([] : List Int) = (if closed = open_ then _ else [])
      rw [if_neg (by decide)]⟩ h
  obtain ⟨_, hpend⟩ := hinv
  refine ⟨hpend, ?_, ?_⟩
  · intro hne
    by_contra hno
    rw [if_neg hno] at hpend
    exact hne hpend
  · intro result hsend
    by_cases hopen : sys.cb.state = open_
    · have hn0 : sys.cb.state ≠ closed := by rw [hopen]; decide
      have hn2 : sys.cb.state ≠ halfopen := by rw [hopen]; decide
      exact absurd (execute_rejected sys.cb _ hn0 hn2).2 hsend
    · rw [hpend, if_neg hopen]

/-- Witness of C20: threshold 2; two failing calls open the breaker and leave
one pending event, a call made meanwhile adds none, the worker step empties
the queue, and the failing call that follows in state `halfopen` sends one
event into the empty queue. -/
theorem pending_iff_open_witness :
    sysRun (newSystem ⟨2, second, 2, none⟩)
        [SysOp.call (some 1), SysOp.call (some 1), SysOp.call none]
      = some ⟨⟨open_, 0, 2, ⟨2, second, 2, none⟩⟩, [second]⟩ ∧
    sysRun (newSystem ⟨2, second, 2, none⟩)
        [SysOp.call (some 1), SysOp.call (some 1), SysOp.call none, SysOp.deliver]
      = some ⟨⟨halfopen, 0, 0, ⟨2, second, 2, none⟩⟩, []⟩ ∧
    ([second] ≠ ([] : List Int) → open_ = open_) ∧
    (sends (execute ⟨halfopen, 0, 0, ⟨2, second, 2, none⟩⟩ (fun _ => some 3)).2 ≠ [] →
      ([] : List Int) = []) :=
  ⟨rfl, rfl,
   (pending_iff_open ⟨2, second, 2, none⟩
      [SysOp.call (some 1), SysOp.call (some 1), SysOp.call none]
      ⟨⟨open_, 0, 2, ⟨2, second, 2, none⟩⟩, [second]⟩ rfl).2.1,
   (pending_iff_open ⟨2, second, 2, none⟩
      [SysOp.call (some 1), SysOp.call (some 1), SysOp.call none, SysOp.deliver]
      ⟨⟨halfopen, 0, 0, ⟨2, second, 2, none⟩⟩, []⟩ rfl).2.2 (some 3)⟩

end CircuitBreaker

namespace Retry

/-- C14. With `numOfRetry = 0` the loop body is never entered: `execute`
returns `nil` and its trace is empty, so neither the action nor the fallback
is invoked. -/
theorem execute_zero_attempts (r : exponentialRetry) (action : Nat → Option GoError)
    (h : r.numOfRetry = 0) :
    execute r action = (Outcome.returned none, []) ∧
    actionCalls (execute r action).2 = 0 ∧
    fallbackCalls (execute r action).2 = [] := by
  have he : execute r action = (Outcome.returned none, []) := by
    unfold execute
    rw [h]
    rfl
  rw [he]
  exact ⟨rfl, rfl, rfl⟩

/-- Witness of C14: no attempt allowed, a fallback configured and an action
that would fail. -/
theorem execute_zero_attempts_witness :
    execute (newExponentialRetry 0 2 second (some 9)) (fun _ => some 1)
      = (Outcome.returned none, []) ∧
    actionCalls (execute (newExponentialRetry 0 2 second (some 9)) (fun _ => some 1)).2 = 0 ∧
    fallbackCalls (execute (newExponentialRetry 0 2 second (some 9)) (fun _ => some 1)).2
      = [] :=
  execute_zero_attempts (newExponentialRetry 0 2 second (some 9)) (fun _ => some 1) rfl

/-- The loop does not read `exponentialFactor`. -/
theorem attempts_factor (n f1 f2 d : Int) (fb : Option GoFunc)
    (action : Nat → Option GoError) (remaining : Nat) :
    ∀ i : Nat,
      attempts ⟨n, f1, d, fb⟩ action remaining i = attempts ⟨n, f2, d, fb⟩ action remaining i := by
  induction remaining with
  | zero => intro i; rfl
  | succ remaining ih =>
    intro i
    simp only [attempts, fallbackEvents, ih]

/-- C15. Two retries that differ only in `exponentialFactor` behave alike on
every action: `execute` gives the same outcome and the same trace, hence the
same action invocations, the same waits and the same fallback invocations. -/
theorem factor_unused (r1 r2 : exponentialRetry) (action : Nat → Option GoError)
    (hn : r1.numOfRetry = r2.numOfRetry) (hd : r1.delay = r2.delay)
    (hf : r1.fallback = r2.fallback) :
    execute r1 action = execute r2 action ∧
    actionCalls (execute r1 action).2 = actionCalls (execute r2 action).2 ∧
    waits (execute r1 action).2 = waits (execute r2 action).2 ∧
    fallbackCalls (execute r1 action).2 = fallbackCalls (execute r2 action).2 := by
  have he : execute r1 action = execute r2 action := by
    obtain ⟨n1, f1, d1, fb1⟩ := r1
    obtain ⟨n2, f2, d2, fb2⟩ := r2
    simp only at hn hd hf
    subst hn hd hf
    unfold execute
    exact attempts_factor n1 f1 f2 d1 fb1 action _ 0
  rw [he]
  exact ⟨rfl, rfl, rfl, rfl⟩

/-- Witness of C15: factors 2 and 7, three attempts, 10ms, an action that fails
once and then succeeds. -/
theorem factor_unused_witness :
    execute (newExponentialRetry 3 2 10000000 (some 9)) (fun i => if i < 1 then some 1 else none)
      = execute (newExponentialRetry 3 7 10000000 (some 9))
          (fun i => if i < 1 then some 1 else none) ∧
    actionCalls (execute (newExponentialRetry 3 2 10000000 (some 9))
        (fun i => if i < 1 then some 1 else none)).2
      = actionCalls (execute (newExponentialRetry 3 7 10000000 (some 9))
        (fun i => if i < 1 then some 1 else none)).2 ∧
    waits (execute (newExponentialRetry 3 2 10000000 (some 9))
        (fun i => if i < 1 then some 1 else none)).2
      = waits (execute (newExponentialRetry 3 7 10000000 (some 9))
        (fun i => if i < 1 then some 1 else none)).2 ∧
    fallbackCalls (execute (newExponentialRetry 3 2 10000000 (some 9))
        (fun i => if i < 1 then some 1 else none)).2
      = fallbackCalls (execute (newExponentialRetry 3 7 10000000 (some 9))
        (fun i => if i < 1 then some 1 else none)).2 :=
  factor_unused (newExponentialRetry 3 2 10000000 (some 9))
    (newExponentialRetry 3 7 10000000 (some 9)) (fun i => if i < 1 then some 1 else none)
    rfl rfl rfl

/-- With at least two attempts allowed and a delay of the `int64` range that
is not positive, a first attempt that fails is followed by a wait that never
completes. -/
theorem nonpositive_delay_blocks (r : exponentialRetry) (action : Nat → Option GoError)
    (e : GoError) (hn : 2 ≤ r.numOfRetry) (hlo : -9223372036854775808 ≤ r.delay)
    (hd : r.delay ≤ 0) (hfail : action 0 = some e) :
    execute r action
      = (Outcome.blocked, [Event.action, Event.logFail 1, Event.tick r.delay]) := by
  obtain ⟨q, hq⟩ : ∃ q, r.numOfRetry.toNat = q + 1 := ⟨r.numOfRetry.toNat - 1, by omega⟩
  have hne : ¬ ((1 : Int) = r.numOfRetry) := by omega
  have hwrap : wrapInt64 r.delay = r.delay := wrapInt64_of_range _ hlo (by omega)
  unfold execute
  rw [hq]
  simp [attempts, hfail, hne, hwrap, hd]

/-- C18, evaluated on the code. With three attempts allowed, a delay of 0 and
an action that always fails, `execute` never returns: after the first failed
attempt the wait handed to `time.Tick` is 0 and does not complete, so the
action is invoked once and no error is returned. With a delay of one
nanosecond the waits complete, the action is invoked three times and the last
error is returned. -/
theorem zero_delay_wait_never_completes :
    (execute (newExponentialRetry 3 2 0 none) (fun i => some (i + 1))).1 = Outcome.blocked ∧
    actionCalls (execute (newExponentialRetry 3 2 0 none) (fun i => some (i + 1))).2 = 1 ∧
    waits (execute (newExponentialRetry 3 2 0 none) (fun i => some (i + 1))).2 = [0] ∧
    (execute (newExponentialRetry 3 2 1 none) (fun i => some (i + 1))).1
      = Outcome.returned (some 3) ∧
    actionCalls (execute (newExponentialRetry 3 2 1 none) (fun i => some (i + 1))).2 = 3 := by
  refine ⟨by decide, by decide, by decide, by decide, by decide⟩

end Retry
